import Mathlib

/-!
Verification of the ZeroTrust-FLBench orchestration-and-aggregation core.

This file gives a shallow embedding, in Lean 4, of the parts of the
repository that the verified properties speak about:

* `scripts/parse_logs.py` — the event-log parser (`parse_server_log`),
  the time-to-accuracy computation (`compute_tta`) and the failure-rate
  computation from `parse_run`;
* `scripts/run_one.py` — the run-identifier generator, the network
  impairment injector (`apply_network_profile`) and the
  completion-detection timeout selection;
* `scripts/run_matrix_fixed.py` — the campaign driver's resume loop.

Machine reals (Python floats used for timestamps and accuracies) are
modelled as `Int` (timestamps, at whole-second resolution; only their
ordered-group structure is used) and `Rat` (accuracies, losses); the
result of `datetime.fromisoformat` on a timestamp string is modelled as
an `Option Int` that is `none` when the string is missing, `None`-valued
or unparseable.  Fallible steps are explicit `Option`s; every definition
is executable.
-/

set_option autoImplicit false

namespace ZeroTrustFLBench

/-- A timestamp value as it appears in a log entry.  `parsed` is the
result of `datetime.fromisoformat(s.replace("Z", "+00:00"))` in
`parse_logs.py`: `some t` when the string parses (to `t` epoch seconds),
`none` when the field was missing, was JSON `null`, or fails to parse
(e.g. the float-valued timestamps emitted by `fl_server.py`). -/
structure Ts where
  parsed : Option Int
deriving Repr, DecidableEq

/-- One decoded line of a server event log (`json.loads` of one line).
Fields are `Option`s: `none` models an absent key, matching the
`entry.get(...)` accesses in `parse_logs.py`.  Lines that fail JSON
decoding are skipped by the parser and therefore simply do not appear
in a `List Entry`. -/
structure Entry where
  event : Option String := none
  run_id : Option String := none
  round : Option Int := none
  timestamp : Ts := ⟨none⟩
  test_accuracy : Option Rat := none
  test_loss : Option Rat := none
  num_failures : Option Int := none
  target_accuracy : Option Rat := none
deriving Repr, DecidableEq

/-- A Round Record as built by `parse_server_log` (`parse_logs.py`,
lines 47-79).  `round_id` and `start_ts` are set when the record is
created from a `round_start` event (the `timestamp` key is always
written, possibly with an unparseable value); `end_ts`, `accuracy`,
`loss` and `failures` are written only when a matching `round_end` is
found; `duration` is written by the post-pass over the records. -/
structure RoundRec where
  round_id : Option Int
  start_ts : Ts
  end_ts : Option Ts := none
  accuracy : Option Rat := none
  loss : Option Rat := none
  failures : Option Int := none
  duration : Option Int := none
deriving Repr, DecidableEq

/-- The `run_meta` dictionary of `parse_server_log`.  The
`target_accuracy_reached` milestones (`tta_XX` keys) are kept as an
association list in arrival order. -/
structure RunMeta where
  run_id : Option String := none
  sec_level : Option String := none
  net_profile : Option String := none
  ttaMilestones : List (Int × Ts) := []
deriving Repr, DecidableEq

/-- The value returned by `parse_server_log`: run metadata plus the
list of Round Records in creation (i.e. `round_start`) order. -/
structure ParseResult where
  meta : RunMeta := {}
  rounds : List RoundRec := []
deriving Repr, DecidableEq

/-- The matching test of the `round_end` branch (`parse_logs.py` line
57): `r["round_id"] == round_id and "end_ts" not in r`. -/
def matchesEnd (e : Entry) (r : RoundRec) : Bool :=
  decide (r.round_id = e.round ∧ r.end_ts = none)

/-- The mutation performed on the matched record (`parse_logs.py` lines
58-61): the end timestamp is stored and the payload metrics are stored
with `entry.get(..., 0)` defaults. -/
def updateEnd (e : Entry) (r : RoundRec) : RoundRec :=
  { r with
    end_ts := some e.timestamp
    accuracy := some (e.test_accuracy.getD 0)
    loss := some (e.test_loss.getD 0)
    failures := some (e.num_failures.getD 0) }

/-- The `for r in rounds: ... break` search of the `round_end` branch
(`parse_logs.py` lines 56-62): update the first record with the same
round number and no end timestamp yet; if none matches, do nothing. -/
def applyRoundEnd (e : Entry) : List RoundRec → List RoundRec
  | [] => []
  | r :: rs =>
    if matchesEnd e r then updateEnd e r :: rs
    else r :: applyRoundEnd e rs

/-- Split a character list at every occurrence of the separator `c`,
keeping empty groups, exactly as Python's `str.split(sep)` does for a
one-character separator.  (Structurally recursive stand-in for
`String.splitOn`, whose well-founded recursion the kernel cannot
evaluate.) -/
def splitChar (c : Char) : List Char → List (List Char)
  | [] => [[]]
  | x :: xs =>
    match splitChar c xs with
    | [] => [[]]
    | g :: gs => if x = c then [] :: g :: gs else (x :: g) :: gs

/-- Python's `run_id.split("_")` from `parse_logs.py` line 40. -/
def splitUnderscore (s : String) : List String :=
  (splitChar '_' s.data).map String.mk

/-- The `experiment_start` branch (`parse_logs.py` lines 35-45): store
the run id and, when it contains an underscore (`"_" in run_id`), split
it on underscores to recover security level and network profile;
otherwise both fall back to `"unknown"`. -/
def parseRunMeta (meta : RunMeta) (e : Entry) : RunMeta :=
  let rid := e.run_id.getD "unknown"
  if rid.data.contains '_' then
    let parts := splitUnderscore rid
    { meta with
      run_id := some rid
      sec_level := some ((parts.get? 0).getD "unknown")
      net_profile := some ((parts.get? 1).getD "unknown") }
  else
    { meta with
      run_id := some rid
      sec_level := some "unknown"
      net_profile := some "unknown" }

/-- The `target_accuracy_reached` branch (`parse_logs.py` lines 64-69):
record a milestone keyed by `int(target*100)` when the target is
present and non-zero (Python truthiness of the float). -/
def addMilestone (meta : RunMeta) (e : Entry) : RunMeta :=
  match e.target_accuracy with
  | some t =>
    if t ≠ 0 then
      { meta with ttaMilestones := meta.ttaMilestones ++ [(⌊t * 100⌋, e.timestamp)] }
    else meta
  | none => meta

/-- One step of the event loop of `parse_server_log` (`parse_logs.py`
lines 27-69), dispatching on the `event` field. -/
def processEntry (st : ParseResult) (e : Entry) : ParseResult :=
  if e.event = some "experiment_start" then
    { st with meta := parseRunMeta st.meta e }
  else if e.event = some "round_start" then
    { st with rounds := st.rounds ++ [{ round_id := e.round, start_ts := e.timestamp }] }
  else if e.event = some "round_end" then
    { st with rounds := applyRoundEnd e st.rounds }
  else if e.event = some "target_accuracy_reached" then
    { st with meta := addMilestone st.meta e }
  else st

/-- The state of `parse_server_log` after the event loop, before the
duration post-pass. -/
def foldState (log : List Entry) : ParseResult :=
  log.foldl processEntry {}

/-- The duration post-pass of `parse_server_log` (`parse_logs.py`
lines 72-79): when the `end_ts` key is present, the duration is the
timestamp delta if both timestamps parse, and `None` if either parse
raises; when `end_ts` is absent the field stays unset. -/
def addDuration (r : RoundRec) : RoundRec :=
  match r.end_ts with
  | none => r
  | some te =>
    match r.start_ts.parsed, te.parsed with
    | some ts1, some ts2 => { r with duration := some (ts2 - ts1) }
    | _, _ => { r with duration := none }

/-- `parse_server_log` (`parse_logs.py` lines 21-84): fold the event
loop over the decoded lines, then run the duration post-pass. -/
def parse_server_log (log : List Entry) : ParseResult :=
  let st := foldState log
  { st with rounds := st.rounds.map addDuration }

/-- The accuracy-and-end condition of `compute_tta` (`parse_logs.py`
line 115): `r.get("accuracy", 0) >= target_acc and r.get("end_ts")`. -/
def condTTA (target : Rat) (r : RoundRec) : Bool :=
  decide (target ≤ r.accuracy.getD 0) && r.end_ts.isSome

/-- The parsed end timestamp of a record, when the `end_ts` key is
present and its value parses. -/
def endParsed (r : RoundRec) : Option Int :=
  r.end_ts.bind Ts.parsed

/-- The parsed start timestamp of `rounds[0]` used inside the `try`
block of `compute_tta` (`parse_logs.py` line 119); `none` when the
rounds list is empty (the `IndexError` is caught) or the parse fails. -/
def headStartParsed (rounds : List RoundRec) : Option Int :=
  match rounds with
  | [] => none
  | r :: _ => r.start_ts.parsed

/-- The scanning loop of `compute_tta` (`parse_logs.py` lines 114-123):
return at the first record meeting the condition whose end timestamp
and the first round's start timestamp both parse; any exception in the
`try` block falls through to the next record. -/
def ttaScan (orig : List RoundRec) (target : Rat) : List RoundRec → Option Int
  | [] => none
  | r :: rs =>
    if condTTA target r then
      match endParsed r, headStartParsed orig with
      | some te, some ts0 => some (te - ts0)
      | _, _ => ttaScan orig target rs
    else ttaScan orig target rs

/-- `compute_tta` (`parse_logs.py` lines 112-123). -/
def compute_tta (rounds : List RoundRec) (target : Rat) : Option Int :=
  ttaScan rounds target rounds

/-- The pandas sum of the `failures` column (`parse_logs.py` line 189):
records without the key (never-matched rounds) are skipped as NaN. -/
def sumFailures (rounds : List RoundRec) : Int :=
  (rounds.filterMap RoundRec.failures).foldl (fun a b => a + b) 0

/-- The failure-rate entry of the run summary (`parse_logs.py` line
189): `rounds_df["failures"].sum() / len(rounds_df)` when rounds exist,
else 0. -/
def failure_rate (rounds : List RoundRec) : Rat :=
  if rounds.length > 0 then (sumFailures rounds : Rat) / (rounds.length : Rat)
  else 0

/-- Python's `str.lower()` on the ASCII flag values, as a character-wise
map.  (Structurally recursive stand-in for `String.toLower`, whose
byte-position recursion the kernel cannot evaluate.) -/
def lowerStr (s : String) : String :=
  String.mk (s.data.map Char.toLower)

/-- The run-identifier generator of the single-run orchestrator
(`run_one.py` line 498):
`f"{args.sec_level.lower()}-{args.net_profile.lower()}-{int(time.time())}"`. -/
def make_run_id (sec net : String) (epoch : Nat) : String :=
  lowerStr sec ++ "-" ++ lowerStr net ++ "-" ++ toString epoch

/-- The completion-detection timeout selection of the single-run
orchestrator (`run_one.py` line 553):
`7200 if args.net_profile == "NET2" else 3600`. -/
def completion_timeout (net_profile : String) : Nat :=
  if net_profile = "NET2" then 7200 else 3600

/-- The inner retry loop of `apply_network_profile` (`run_one.py` lines
121-138): `for attempt in range(1, 6)`, breaking at the first attempt
for which the netem script exits 0.  `ok a` is the success of attempt
number `a` for the current pod; the first component lists the attempt
numbers actually tried, in order, and the second is the `success` flag
after the loop. -/
def netemLoop (ok : Nat → Bool) : Nat → Nat → List Nat × Bool
  | _, 0 => ([], false)
  | a, fuel + 1 =>
    if ok a then ([a], true)
    else
      let r := netemLoop ok (a + 1) fuel
      (a :: r.1, r.2)

/-- The outcome of `apply_network_profile`: the `(pod, attempt)` pairs
tried, in order, and the pod named in the `RuntimeError` when one pod
exhausted its retries (`none` when the call returned normally). -/
structure ApplyOutcome where
  attempts : List (String × Nat)
  error : Option String
deriving Repr, DecidableEq

/-- The `for pod in pods` loop of `apply_network_profile` (`run_one.py`
lines 120-142): each pod gets up to 5 attempts; if a pod's retries are
exhausted (`if not success`), a `RuntimeError` is raised and no later
pod is processed. -/
def applyClients (ok : String → Nat → Bool) : List String → ApplyOutcome
  | [] => { attempts := [], error := none }
  | pod :: rest =>
    let t := netemLoop (ok pod) 1 5
    if t.2 then
      let r := applyClients ok rest
      { attempts := t.1.map (fun a => (pod, a)) ++ r.attempts, error := r.error }
    else
      { attempts := t.1.map (fun a => (pod, a)), error := some pod }

/-- `apply_network_profile` (`run_one.py` lines 86-144), restricted to
its retry phase: for the baseline profile `"NET0"` the function returns
at once with no attempts (lines 88-91); otherwise every resolved client
pod is impaired with bounded retry.  `ok pod a` models the exit status
of `netem_apply.sh` on `pod` at attempt `a`. -/
def apply_network_profile (profile : String) (pods : List String)
    (ok : String → Nat → Bool) : ApplyOutcome :=
  if profile = "NET0" then { attempts := [], error := none }
  else applyClients ok pods

/-- The experiment loop of the campaign driver (`run_matrix_fixed.py`
lines 253-268): `for i, config in enumerate(configs): if i <
args.resume_from: continue` — the list of configurations actually
executed, with `i` the running enumeration index. -/
def campaignLoop {α : Type} (resumeFrom : Nat) : Nat → List α → List α
  | _, [] => []
  | i, c :: cs =>
    if i < resumeFrom then campaignLoop resumeFrom (i + 1) cs
    else c :: campaignLoop resumeFrom (i + 1) cs

/-- The configurations the campaign driver executes, in order, for a
given enumerated configuration list and resume index. -/
def campaignExecuted {α : Type} (configs : List α) (resumeFrom : Nat) : List α :=
  campaignLoop resumeFrom 0 configs

/-! ### Concrete event logs used as counterexamples and witnesses -/

/-- A server event log whose `experiment_start` carries exactly the run
identifier `run_one.py` generates for `--sec-level SEC0 --net-profile
NET0` at epoch second 1700000000. -/
def logRunOneId : List Entry :=
  [{ event := some "experiment_start", run_id := some (make_run_id "SEC0" "NET0" 1700000000) }]

/-- A log with one completed round that reports two client failures. -/
def logTwoFailures : List Entry :=
  [{ event := some "round_start", round := some 1, timestamp := ⟨some 0⟩ },
   { event := some "round_end", round := some 1, timestamp := ⟨some 5⟩, num_failures := some 2 }]

/-- The Round Record `parse_server_log` produces from `logTwoFailures`. -/
def recTwoFailures : RoundRec :=
  { round_id := some 1, start_ts := ⟨some 0⟩, end_ts := some ⟨some 5⟩,
    accuracy := some 0, loss := some 0, failures := some 2, duration := some 5 }

/-- A log whose `round_start` timestamp does not parse (e.g. the
float-valued timestamps `fl_server.py` emits) but whose `round_end`
timestamp does: both ends of round 1 are observed. -/
def logBadStartTs : List Entry :=
  [{ event := some "round_start", round := some 1, timestamp := ⟨none⟩ },
   { event := some "round_end", round := some 1, timestamp := ⟨some 10⟩ }]

/-- A log whose two rounds end out of creation order: round 2 ends at
second 10 with accuracy 0.98, round 1 ends later, at second 20, with
accuracy 0.96. -/
def logOutOfOrderEnds : List Entry :=
  [{ event := some "round_start", round := some 1, timestamp := ⟨some 0⟩ },
   { event := some "round_start", round := some 2, timestamp := ⟨some 1⟩ },
   { event := some "round_end", round := some 2, timestamp := ⟨some 10⟩,
     test_accuracy := some (mkRat 98 100) },
   { event := some "round_end", round := some 1, timestamp := ⟨some 20⟩,
     test_accuracy := some (mkRat 96 100) }]

/-- A log whose two rounds end in creation order: round 1 ends at
second 5 with accuracy 0.96, round 2 at second 9 with accuracy 0.98. -/
def logInOrderEnds : List Entry :=
  [{ event := some "round_start", round := some 1, timestamp := ⟨some 0⟩ },
   { event := some "round_start", round := some 2, timestamp := ⟨some 1⟩ },
   { event := some "round_end", round := some 1, timestamp := ⟨some 5⟩,
     test_accuracy := some (mkRat 96 100) },
   { event := some "round_end", round := some 2, timestamp := ⟨some 9⟩,
     test_accuracy := some (mkRat 98 100) }]

/-- An orphaned `round_end` for round 7 with no preceding
`round_start`. -/
def orphanEnd : Entry :=
  { event := some "round_end", round := some 7, timestamp := ⟨some 3⟩ }

/-!
## Claim C1 — run-level metadata extraction from the run identifier

The spec says the parser recovers the security level and network
profile by decomposing the run identifier's structured prefix, and the
run identifier is the lowercase hyphen-delimited
`<sec>-<net>-<timestamp>` generated by `run_one.py` (line 498).  But
`parse_server_log` (lines 39-45) splits the id on underscores (the
comment there still documents the obsolete format `SEC0_NET0_timestamp`),
so on every identifier the orchestrator actually generates the split
never happens and both fields degrade to `"unknown"`.  The code
contradicts both the spec and its own comment: a code bug.
-/

/-- C1: on the run identifier generated by the single-run orchestrator
for `SEC0`/`NET0`, the Event Log Parser fails to extract the security
level and network profile — both parse as `"unknown"` instead of
`"sec0"`/`"net0"` — because it splits on `"_"` while the identifier is
hyphen-delimited. -/
theorem run_id_metadata_extraction_bug :
    make_run_id "SEC0" "NET0" 1700000000 = "sec0-net0-1700000000"
    ∧ (parse_server_log logRunOneId).meta.run_id = some "sec0-net0-1700000000"
    ∧ (parse_server_log logRunOneId).meta.sec_level = some "unknown"
    ∧ (parse_server_log logRunOneId).meta.net_profile = some "unknown"
    ∧ (some "unknown" : Option String) ≠ some "sec0" := by
  refine ⟨by decide, by decide, by decide, by decide, by decide⟩

/-!
## Claim C5 — completion timeout as a function of the network profile

The claim says every non-baseline profile gets a strictly longer
completion timeout than the baseline `NET0`.  In `run_one.py` line 553
only `NET2` gets 7200 s; `NET1`, `NET3`, `NET4`, `NET5` get the same
3600 s as the baseline.
-/

/-- C5 counterexample: the impaired profile `NET1` does not receive a
longer completion timeout than the baseline `NET0`. -/
theorem completion_timeout_net1_not_longer :
    ¬ completion_timeout "NET0" < completion_timeout "NET1" := by decide

/-- C5 (amended): only `NET2` receives a strictly longer
completion-detection timeout than the baseline; every other profile,
impaired or not, receives exactly the baseline timeout. -/
theorem completion_timeout_only_net2_longer :
    completion_timeout "NET0" < completion_timeout "NET2"
    ∧ ∀ p : String, p ≠ "NET2" → completion_timeout p = completion_timeout "NET0" :=
  ⟨by decide, fun p hp => by simp [completion_timeout, hp]⟩

/-- C5 witness: the amended statement applied at the concrete profile
`NET1`. -/
theorem completion_timeout_only_net2_longer_witness :
    completion_timeout "NET0" < completion_timeout "NET2"
    ∧ completion_timeout "NET1" = completion_timeout "NET0" :=
  ⟨completion_timeout_only_net2_longer.1,
   completion_timeout_only_net2_longer.2 "NET1" (by decide)⟩

/-!
## Claim C6 — orphaned round_end events are ignored
-/

/-- The `round_end` search leaves the record list unchanged when no
open record matches the event's round number. -/
theorem applyRoundEnd_of_no_match (e : Entry) (rounds : List RoundRec)
    (h : ∀ r ∈ rounds, ¬ (r.round_id = e.round ∧ r.end_ts = none)) :
    applyRoundEnd e rounds = rounds := by
  induction rounds with
  | nil => rfl
  | cons r rs ih =>
    have hr : matchesEnd e r = false := decide_eq_false (h r (by simp))
    simp [applyRoundEnd, hr, ih fun x hx => h x (by simp [hx])]

/-- C6: a `round_end` event with no open Round Record for its round
number is ignored: parsing the log with the event yields exactly the
same result as parsing the log without it (no record is created, no
record changes, and parsing is total, hence cannot raise). -/
theorem orphan_round_end_ignored (pre post : List Entry) (e : Entry)
    (he : e.event = some "round_end")
    (hno : ∀ r ∈ (foldState pre).rounds, ¬ (r.round_id = e.round ∧ r.end_ts = none)) :
    parse_server_log (pre ++ e :: post) = parse_server_log (pre ++ post) := by
  have hstep : processEntry (foldState pre) e = foldState pre := by
    simp [processEntry, he, applyRoundEnd_of_no_match e _ hno]
  unfold parse_server_log foldState
  rw [List.foldl_append, List.foldl_append, List.foldl_cons]
  have : List.foldl processEntry {} pre = foldState pre := rfl
  rw [this, hstep]

/-- C6 witness: the orphaned `round_end(round=7)` of the spec scenario,
arriving as the only event of the log, is ignored. -/
theorem orphan_round_end_ignored_witness :
    parse_server_log ([] ++ orphanEnd :: []) = parse_server_log ([] ++ []) :=
  orphan_round_end_ignored [] [] orphanEnd rfl (by decide)

/-!
## Structural facts about the round_end search and the duration pass
-/

/-- Every record in the updated list is either an untouched original
record or the update of an original record. -/
theorem mem_applyRoundEnd {e : Entry} :
    ∀ {rounds : List RoundRec} {x : RoundRec}, x ∈ applyRoundEnd e rounds →
      x ∈ rounds ∨ ∃ r ∈ rounds, x = updateEnd e r := by
  intro rounds
  induction rounds with
  | nil => intro x hx; simp [applyRoundEnd] at hx
  | cons r rs ih =>
    intro x hx
    by_cases h : matchesEnd e r
    · simp [applyRoundEnd, h] at hx
      rcases hx with h1 | h2
      · exact Or.inr ⟨r, by simp, h1⟩
      · exact Or.inl (by simp [h2])
    · simp [applyRoundEnd, h] at hx
      rcases hx with h1 | h2
      · exact Or.inl (by simp [h1])
      · rcases ih h2 with h3 | ⟨y, hy, hxy⟩
        · exact Or.inl (by simp [h3])
        · exact Or.inr ⟨y, by simp [hy], hxy⟩

theorem updateEnd_duration (e : Entry) (r : RoundRec) :
    (updateEnd e r).duration = r.duration := rfl

theorem addDuration_failures (r : RoundRec) :
    (addDuration r).failures = r.failures := by
  unfold addDuration
  split
  · rfl
  · split <;> rfl

theorem addDuration_end_ts (r : RoundRec) :
    (addDuration r).end_ts = r.end_ts := by
  unfold addDuration
  split
  · rfl
  · split <;> rfl

theorem addDuration_start_ts (r : RoundRec) :
    (addDuration r).start_ts = r.start_ts := by
  unfold addDuration
  split
  · rfl
  · split <;> rfl

/-- An invariant of the record list that holds of the fresh record each
`round_start` of the log appends and is preserved by the `round_end`
update for each entry of the log holds of every record in the fold
state. -/
theorem foldState_rounds_invariant (P : RoundRec → Prop) :
    ∀ log : List Entry,
      (∀ e ∈ log, P { round_id := e.round, start_ts := e.timestamp }) →
      (∀ e ∈ log, ∀ r : RoundRec, P r → P (updateEnd e r)) →
      ∀ st : ParseResult, (∀ r ∈ st.rounds, P r) →
      ∀ r ∈ (log.foldl processEntry st).rounds, P r := by
  intro log
  induction log with
  | nil => intro _ _ st hst; simpa using hst
  | cons e rest ih =>
    intro hnew hupd st hst
    rw [List.foldl_cons]
    refine ih (fun x hx => hnew x (by simp [hx])) (fun x hx => hupd x (by simp [hx]))
      (processEntry st e) ?_
    intro r hr
    unfold processEntry at hr
    split_ifs at hr with h1 h2 h3 h4
    · exact hst r hr
    · rcases List.mem_append.mp hr with h | h
      · exact hst r h
      · simp only [List.mem_singleton] at h
        exact h ▸ hnew e (by simp)
    · rcases mem_applyRoundEnd hr with h | ⟨y, hy, hxy⟩
      · exact hst r h
      · exact hxy ▸ hupd e (by simp) y (hst y hy)
    · exact hst r hr
    · exact hst r hr

/-!
## Claim C2 — the failure rate

`parse_run` (line 189) divides the *sum of per-round failure counts* by
the number of *all* started rounds.  A single round may report several
client failures (`num_failures` counts failed clients), so the ratio
can exceed 1; it is non-negative whenever the reported counts are.
-/

/-- C2 counterexample: a log with one round reporting `num_failures = 2`
yields a failure rate of 2, outside `[0, 1]`. -/
theorem failure_rate_above_one :
    ¬ failure_rate (parse_server_log logTwoFailures).rounds ≤ 1 := by
  have h : (parse_server_log logTwoFailures).rounds = [recTwoFailures] := by decide
  have hs : sumFailures [recTwoFailures] = 2 := by decide
  rw [h]
  simp [failure_rate, hs]

theorem foldl_add_nonneg :
    ∀ (l : List Int) (init : Int), 0 ≤ init → (∀ x ∈ l, 0 ≤ x) →
      0 ≤ l.foldl (fun a b => a + b) init := by
  intro l
  induction l with
  | nil => intro init h0 _; simpa using h0
  | cons x xs ih =>
    intro init h0 hl
    rw [List.foldl_cons]
    exact ih (init + x) (by have := hl x (by simp); omega) fun y hy => hl y (by simp [hy])

/-- C2 (amended): whenever every `num_failures` reported in the log is
non-negative, the computed failure rate is non-negative; it is not
bounded by 1 (see `failure_rate_above_one`), because the numerator sums
per-round client-failure counts while the denominator counts started
rounds. -/
theorem failure_rate_nonneg (log : List Entry)
    (h : ∀ e ∈ log, ∀ n, e.num_failures = some n → 0 ≤ n) :
    0 ≤ failure_rate (parse_server_log log).rounds := by
  have hinv : ∀ s ∈ (foldState log).rounds, ∀ f, s.failures = some f → 0 ≤ f := by
    refine foldState_rounds_invariant (fun s => ∀ f, s.failures = some f → 0 ≤ f) log
      (by intro e _ f hf; simp at hf) ?_ {} (by simp [foldState])
    intro e he r _ f hf
    simp only [updateEnd, Option.some.injEq] at hf
    subst hf
    match hnum : e.num_failures with
    | some n => simpa [hnum] using h e he n hnum
    | none => simp [hnum]
  unfold failure_rate
  split_ifs with hl
  · apply div_nonneg
    · have hmem : ∀ x ∈ ((parse_server_log log).rounds.filterMap RoundRec.failures), 0 ≤ x := by
        intro x hx
        rcases List.mem_filterMap.mp hx with ⟨r, hr, hfx⟩
        simp only [parse_server_log, List.mem_map] at hr
        rcases hr with ⟨r0, hr0, hrr0⟩
        refine hinv r0 hr0 x ?_
        rw [← addDuration_failures r0, hrr0, hfx]
      have := foldl_add_nonneg ((parse_server_log log).rounds.filterMap RoundRec.failures) 0
        le_rfl hmem
      unfold sumFailures
      exact_mod_cast this
    · positivity
  · norm_num

/-- C2 witness: the amended non-negativity statement applied to the
concrete log `logTwoFailures`. -/
theorem failure_rate_nonneg_witness :
    0 ≤ failure_rate (parse_server_log logTwoFailures).rounds :=
  failure_rate_nonneg logTwoFailures (by
    intro e he n hn
    simp only [logTwoFailures, List.mem_cons, List.mem_singleton] at he
    rcases he with rfl | rfl | h
    · simp at hn
    · simp only [Option.some.injEq] at hn
      omega
    · simp at h)

/-!
## Claim C3 — nullability of the duration field

The claim states `duration` is non-null exactly when both ends of the
round were observed.  The code (lines 72-79) additionally nulls the
field when either timestamp fails to parse, even though both events
are present, so the claim's "if both present then populated" direction
fails; the correct characterization adds that both timestamps parse.
-/

/-- C3 counterexample: in `logBadStartTs` both `round_start(1)` and
`round_end(1)` are observed (the record exists and has an end
timestamp), yet `duration` is null because the start timestamp does not
parse. -/
theorem duration_null_despite_both_ends :
    ¬ (∀ r ∈ (parse_server_log logBadStartTs).rounds,
        (r.duration.isSome ↔ r.end_ts.isSome)) := by decide

/-- The fold over the event loop never writes the duration field. -/
theorem foldState_duration_none (log : List Entry) :
    ∀ r ∈ (foldState log).rounds, r.duration = none := by
  have := foldState_rounds_invariant (fun r => r.duration = none) log
    (by intro e _; rfl) (by intro e _ r hr; simpa [updateEnd] using hr) {} (by simp)
  simpa [foldState] using this

/-- C3 (amended): for every Round Record produced by the parser,
`duration` is non-null if and only if a matching `round_end` was
observed (the record carries an end timestamp) *and* both the start and
end timestamps parse successfully. -/
theorem duration_iff_ends_parse (log : List Entry) :
    ∀ r ∈ (parse_server_log log).rounds,
      (r.duration.isSome ↔ ((endParsed r).isSome ∧ r.start_ts.parsed.isSome)) := by
  intro r hr
  simp only [parse_server_log, List.mem_map] at hr
  rcases hr with ⟨r0, hr0, rfl⟩
  have hd0 : r0.duration = none := foldState_duration_none log r0 hr0
  cases hend : r0.end_ts with
  | none => simp [addDuration, endParsed, hend, hd0]
  | some te =>
    cases hsp : r0.start_ts.parsed <;> cases hep : te.parsed <;>
      simp [addDuration, endParsed, hend, hsp, hep, hd0]

/-- C3 witness: the amended characterization applied to the completed
round of `logTwoFailures`, whose timestamps both parse. -/
theorem duration_iff_ends_parse_witness :
    (recTwoFailures.duration.isSome ↔
      ((endParsed recTwoFailures).isSome ∧ recTwoFailures.start_ts.parsed.isSome)) :=
  duration_iff_ends_parse logTwoFailures recTwoFailures (by decide)

/-!
## Claims C9 and C10 — how a round_end event is matched

`applyRoundEnd` scans the record list from the front and stops at the
first record with the event's round number and no end timestamp; the
lemmas below characterize it through `List.findIdx (matchesEnd e)`.
-/

theorem applyRoundEnd_length (e : Entry) :
    ∀ rounds : List RoundRec, (applyRoundEnd e rounds).length = rounds.length := by
  intro rounds
  induction rounds with
  | nil => rfl
  | cons r rs ih =>
    by_cases h : matchesEnd e r <;> simp [applyRoundEnd, h, ih]

/-- Every index other than the index of the first open matching record
is left untouched by the `round_end` search. -/
theorem applyRoundEnd_getElem_ne (e : Entry) :
    ∀ (rounds : List RoundRec) (i : Nat), i ≠ rounds.findIdx (matchesEnd e) →
      (applyRoundEnd e rounds)[i]? = rounds[i]? := by
  intro rounds
  induction rounds with
  | nil => intro i _; simp [applyRoundEnd]
  | cons r rs ih =>
    intro i hi
    rw [List.findIdx_cons] at hi
    by_cases h : matchesEnd e r
    · cases i with
      | zero => simp [h] at hi
      | succ j => simp [applyRoundEnd, h]
    · cases i with
      | zero => simp [applyRoundEnd, h]
      | succ j =>
        have hj : j ≠ rs.findIdx (matchesEnd e) := by
          simp only [h, cond_false] at hi
          omega
        simp [applyRoundEnd, h, ih j hj]

/-- The record found at `List.findIdx p` satisfies `p`. -/
theorem getElem_findIdx_true {α : Type} (p : α → Bool) :
    ∀ (l : List α) (j : Nat) (r : α), l[j]? = some r → l.findIdx p = j → p r = true := by
  intro l
  induction l with
  | nil => intro j r hj _; simp at hj
  | cons a as ih =>
    intro j r hj hfind
    rw [List.findIdx_cons] at hfind
    by_cases h : p a
    · simp [h] at hfind
      subst hfind
      simp only [List.getElem?_cons_zero, Option.some.injEq] at hj
      rw [← hj]
      exact h
    · simp [h] at hfind
      cases j with
      | zero => omega
      | succ j2 =>
        simp only [List.getElem?_cons_succ] at hj
        exact ih j2 r hj (by omega)

/-- At the index of the first open matching record, the search stores
exactly the update of the original record. -/
theorem applyRoundEnd_getElem_found (e : Entry) :
    ∀ (rounds : List RoundRec) (j : Nat) (r : RoundRec), rounds[j]? = some r →
      rounds.findIdx (matchesEnd e) = j →
      (applyRoundEnd e rounds)[j]? = some (updateEnd e r) := by
  intro rounds
  induction rounds with
  | nil => intro j r hj _; simp at hj
  | cons a as ih =>
    intro j r hj hfind
    rw [List.findIdx_cons] at hfind
    by_cases h : matchesEnd e a
    · simp [h] at hfind
      subst hfind
      simp only [List.getElem?_cons_zero, Option.some.injEq] at hj
      subst hj
      simp [applyRoundEnd, h]
    · simp only [h, cond_false] at hfind
      cases j with
      | zero => omega
      | succ j2 =>
        simp only [List.getElem?_cons_succ] at hj
        rw [show applyRoundEnd e (a :: as) = a :: applyRoundEnd e as from by
          simp [applyRoundEnd, h]]
        simp only [List.getElem?_cons_succ]
        exact ih j2 r hj (by omega)

/-- C9: during one parse pass, a `round_end` event changes at most one
Round Record — the earliest record with the same round number whose end
timestamp is unset (its index is `List.findIdx (matchesEnd e)`): the
list keeps its length, every other index is untouched, every record
whose end timestamp is already set is returned unchanged, and the found
record receives exactly the `updateEnd` fields. -/
theorem round_end_updates_at_most_first_open (e : Entry) (rounds : List RoundRec) :
    (applyRoundEnd e rounds).length = rounds.length
    ∧ (∀ i : Nat, i ≠ rounds.findIdx (matchesEnd e) →
        (applyRoundEnd e rounds)[i]? = rounds[i]?)
    ∧ (∀ (i : Nat) (r : RoundRec), rounds[i]? = some r → r.end_ts ≠ none →
        (applyRoundEnd e rounds)[i]? = some r)
    ∧ (∀ r : RoundRec, rounds[rounds.findIdx (matchesEnd e)]? = some r →
        (applyRoundEnd e rounds)[rounds.findIdx (matchesEnd e)]? = some (updateEnd e r)) := by
  refine ⟨applyRoundEnd_length e rounds, applyRoundEnd_getElem_ne e rounds, ?_, ?_⟩
  · intro i r hi hr
    by_cases h : i = rounds.findIdx (matchesEnd e)
    · exfalso
      have := getElem_findIdx_true (matchesEnd e) rounds i r hi h.symm
      simp only [matchesEnd, decide_eq_true_eq] at this
      exact hr this.2
    · rw [applyRoundEnd_getElem_ne e rounds i h, hi]
  · intro r hr
    exact applyRoundEnd_getElem_found e rounds _ r hr rfl

/-- A complete record for round 1 followed by a new open record for
round 1, as left by a restarted round. -/
def recClosedRound1 : RoundRec :=
  { round_id := some 1, start_ts := ⟨some 0⟩, end_ts := some ⟨some 4⟩,
    accuracy := some (mkRat 9 10), loss := some 0, failures := some 0 }

/-- An open record for round 1 created after `recClosedRound1`. -/
def recOpenRound1 : RoundRec :=
  { round_id := some 1, start_ts := ⟨some 6⟩ }

/-- A second `round_end` for round 1, arriving after round 1 already
completed once. -/
def secondEndRound1 : Entry :=
  { event := some "round_end", round := some 1, timestamp := ⟨some 8⟩,
    test_accuracy := some (mkRat 95 100) }

/-- C9 witness: with a complete record and a later open record for the
same round number, a further `round_end` leaves the complete record
(index 0) untouched and updates exactly the open record (index 1). -/
theorem round_end_updates_at_most_first_open_witness :
    (applyRoundEnd secondEndRound1 [recClosedRound1, recOpenRound1]).length
        = [recClosedRound1, recOpenRound1].length
    ∧ (applyRoundEnd secondEndRound1 [recClosedRound1, recOpenRound1])[0]?
        = [recClosedRound1, recOpenRound1][0]?
    ∧ (applyRoundEnd secondEndRound1 [recClosedRound1, recOpenRound1])[0]?
        = some recClosedRound1
    ∧ (applyRoundEnd secondEndRound1 [recClosedRound1, recOpenRound1])[1]?
        = some (updateEnd secondEndRound1 recOpenRound1) := by
  have h := round_end_updates_at_most_first_open secondEndRound1 [recClosedRound1, recOpenRound1]
  have hidx : [recClosedRound1, recOpenRound1].findIdx (matchesEnd secondEndRound1) = 1 := by decide
  refine ⟨h.1, h.2.1 0 (by rw [hidx]; decide), ?_, ?_⟩
  · exact h.2.2.1 0 recClosedRound1 (by decide) (by decide)
  · have := h.2.2.2 recOpenRound1 (by rw [hidx]; decide)
    rwa [hidx] at this

/-- C10: when a `round_end` event is matched to an open Round Record,
the matched index receives exactly `updateEnd e r`; and for each
payload field independently — `test_accuracy`, `test_loss`,
`num_failures` — if the event omits that field, the parser stores the
value 0 for the corresponding record field (accuracy, loss, failure
count respectively) rather than leaving it null, regardless of whether
the other two fields are present. -/
theorem round_end_missing_fields_default_zero (e : Entry) (rounds : List RoundRec)
    (j : Nat) (r : RoundRec) (hj : rounds[j]? = some r)
    (hfind : rounds.findIdx (matchesEnd e) = j) :
    (applyRoundEnd e rounds)[j]? = some (updateEnd e r)
    ∧ (e.test_accuracy = none → (updateEnd e r).accuracy = some 0)
    ∧ (e.test_loss = none → (updateEnd e r).loss = some 0)
    ∧ (e.num_failures = none → (updateEnd e r).failures = some 0) := by
  refine ⟨applyRoundEnd_getElem_found e rounds j r hj hfind, ?_, ?_, ?_⟩
  · intro h; simp [updateEnd, h]
  · intro h; simp [updateEnd, h]
  · intro h; simp [updateEnd, h]

/-- A `round_end` for round 7 that reports accuracy and loss but omits
`num_failures`. -/
def mixedEndRound7 : Entry :=
  { event := some "round_end", round := some 7, timestamp := ⟨some 12⟩,
    test_accuracy := some (mkRat 9 10), test_loss := some (mkRat 1 10) }

/-- An open record for round 7. -/
def recOpenRound7 : RoundRec :=
  { round_id := some 7, start_ts := ⟨some 2⟩ }

/-- C10 witness: a mixed case — the `round_end` reports accuracy 0.9
and loss 0.1 but omits `num_failures`: the matched record stores the
reported accuracy and loss and defaults the failure count to 0. -/
theorem round_end_missing_fields_default_zero_witness :
    ((applyRoundEnd mixedEndRound7 [recOpenRound7])[0]?
        = some (updateEnd mixedEndRound7 recOpenRound7)
      ∧ (updateEnd mixedEndRound7 recOpenRound7).failures = some 0)
    ∧ (updateEnd mixedEndRound7 recOpenRound7).accuracy = some (mkRat 9 10)
    ∧ (updateEnd mixedEndRound7 recOpenRound7).loss = some (mkRat 1 10) :=
  have h := round_end_missing_fields_default_zero mixedEndRound7 [recOpenRound7] 0
    recOpenRound7 (by decide) (by decide)
  ⟨⟨h.1, h.2.2.2 rfl⟩, by decide, by decide⟩

/-!
## Claim C7 — monotonicity of time-to-accuracy in the threshold

`compute_tta` returns at the *first* record (in creation order) whose
accuracy clears the threshold, but its value is that record's *end
timestamp* minus the first round's start — and end timestamps need not
be monotone in creation order, because `round_end` events can arrive
out of order.  Lowering the threshold can therefore move the selection
to an earlier-created round that ended *later*, so TTA is not monotone
in general; it is once the records' parsed end timestamps are
non-decreasing in list order.  The non-nullability propagation part of
the claim does hold unconditionally.
-/

/-- Ordering of two records by their parsed end timestamps, when both
are available. -/
def ttaEndLe (a b : RoundRec) : Prop :=
  ∀ x ∈ endParsed a, ∀ y ∈ endParsed b, x ≤ y

instance : DecidableRel ttaEndLe := fun a b =>
  decidable_of_iff (∀ x ∈ endParsed a, ∀ y ∈ endParsed b, x ≤ y) Iff.rfl

/-- Lowering the threshold preserves the accuracy-and-end condition. -/
theorem condTTA_mono {T1 T2 : Rat} (hT : T2 ≤ T1) {r : RoundRec}
    (h : condTTA T1 r = true) : condTTA T2 r = true := by
  simp only [condTTA, Bool.and_eq_true, decide_eq_true_eq] at h ⊢
  exact ⟨le_trans hT h.1, h.2⟩

/-- When the scan returns nothing, no record both meets the condition
and has the needed parses. -/
theorem ttaScan_none_forall (orig : List RoundRec) (T : Rat) :
    ∀ l : List RoundRec, ttaScan orig T l = none →
      ∀ r ∈ l, condTTA T r = true →
        ¬ ((endParsed r).isSome ∧ (headStartParsed orig).isSome) := by
  intro l
  induction l with
  | nil => intro _ r hr; simp at hr
  | cons r rs ih =>
    intro h x hx hcx hsome
    rcases List.mem_cons.mp hx with rfl | hx2
    · rcases Option.isSome_iff_exists.mp hsome.1 with ⟨te, hte⟩
      rcases Option.isSome_iff_exists.mp hsome.2 with ⟨s0, hs0⟩
      simp [ttaScan, hcx, hte, hs0] at h
    · refine ih ?_ x hx2 hcx hsome
      by_cases hc : condTTA T r = true
      · cases hep : endParsed r with
        | none => simpa [ttaScan, hc, hep] using h
        | some te =>
          cases hsp : headStartParsed orig with
          | none => simpa [ttaScan, hc, hep, hsp] using h
          | some s0 => simp [ttaScan, hc, hep, hsp] at h
      · simpa [ttaScan, hc] using h

/-- When the scan returns a value, it is the timestamp delta of some
record of the list that meets the condition. -/
theorem ttaScan_some_exists (orig : List RoundRec) (T : Rat) :
    ∀ (l : List RoundRec) (v : Int), ttaScan orig T l = some v →
      ∃ r ∈ l, condTTA T r = true ∧ ∃ te s0, endParsed r = some te ∧
        headStartParsed orig = some s0 ∧ v = te - s0 := by
  intro l
  induction l with
  | nil => intro v hv; simp [ttaScan] at hv
  | cons r rs ih =>
    intro v hv
    by_cases hc : condTTA T r = true
    · cases hep : endParsed r with
      | none =>
        rcases ih v (by simpa [ttaScan, hc, hep] using hv) with ⟨x, hx, hrest⟩
        exact ⟨x, by simp [hx], hrest⟩
      | some te =>
        cases hsp : headStartParsed orig with
        | none =>
          rcases ih v (by simpa [ttaScan, hc, hep, hsp] using hv) with
            ⟨x, hx, hcond, te2, s0, hep2, hsp2, hv2⟩
          exact ⟨x, by simp [hx], hcond, te2, s0, hep2, hsp ▸ hsp2, hv2⟩
        | some s0 =>
          have hv2 : te - s0 = v := by simpa [ttaScan, hc, hep, hsp] using hv
          exact ⟨r, by simp, hc, te, s0, hep, rfl, hv2.symm⟩
    · rcases ih v (by simpa [ttaScan, hc] using hv) with ⟨x, hx, hrest⟩
      exact ⟨x, by simp [hx], hrest⟩

/-- Monotonicity of the scan over a list whose parsed end timestamps
are pairwise ordered. -/
theorem ttaScan_mono (orig : List RoundRec) {T1 T2 : Rat} (hT : T2 ≤ T1) :
    ∀ l : List RoundRec, l.Pairwise ttaEndLe →
      ∀ v1 v2, ttaScan orig T1 l = some v1 → ttaScan orig T2 l = some v2 → v2 ≤ v1 := by
  intro l
  induction l with
  | nil => intro _ v1 v2 h1 _; simp [ttaScan] at h1
  | cons r rs ih =>
    intro hpw v1 v2 h1 h2
    have hrel := (List.pairwise_cons.mp hpw).1
    have hpw2 := (List.pairwise_cons.mp hpw).2
    by_cases hc2 : condTTA T2 r = true
    · cases hep : endParsed r with
      | some te =>
        cases hsp : headStartParsed orig with
        | some s0 =>
          have hv2 : te - s0 = v2 := by simpa [ttaScan, hc2, hep, hsp] using h2
          by_cases hc1 : condTTA T1 r = true
          · have hv1 : te - s0 = v1 := by simpa [ttaScan, hc1, hep, hsp] using h1
            omega
          · have h1r : ttaScan orig T1 rs = some v1 := by simpa [ttaScan, hc1] using h1
            rcases ttaScan_some_exists orig T1 rs v1 h1r with
              ⟨x, hxmem, _, te2, s0b, hep2, hsp2, hv1⟩
            have hs0 : s0b = s0 := by rw [hsp] at hsp2; exact (Option.some.injEq _ _ ▸ hsp2).symm
            have hte : te ≤ te2 := hrel x hxmem te (by simp [hep]) te2 (by simp [hep2])
            omega
        | none =>
          have h2r : ttaScan orig T2 rs = some v2 := by simpa [ttaScan, hc2, hep, hsp] using h2
          have h1r : ttaScan orig T1 rs = some v1 := by
            by_cases hc1 : condTTA T1 r = true
            · simpa [ttaScan, hc1, hep, hsp] using h1
            · simpa [ttaScan, hc1] using h1
          exact ih hpw2 v1 v2 h1r h2r
      | none =>
        have h2r : ttaScan orig T2 rs = some v2 := by simpa [ttaScan, hc2, hep] using h2
        have h1r : ttaScan orig T1 rs = some v1 := by
          by_cases hc1 : condTTA T1 r = true
          · simpa [ttaScan, hc1, hep] using h1
          · simpa [ttaScan, hc1] using h1
        exact ih hpw2 v1 v2 h1r h2r
    · have hc1 : ¬ condTTA T1 r = true := fun h => hc2 (condTTA_mono hT h)
      exact ih hpw2 v1 v2 (by simpa [ttaScan, hc1] using h1) (by simpa [ttaScan, hc2] using h2)

/-- C7 counterexample: in `logOutOfOrderEnds` the thresholds satisfy
0.95 ≤ 0.97, both TTA values are non-null, yet TTA(0.95) = 20 exceeds
TTA(0.97) = 10, because lowering the threshold selects the
earlier-created round that ended later. -/
theorem tta_not_monotone_out_of_order :
    mkRat 95 100 ≤ mkRat 97 100
    ∧ compute_tta (parse_server_log logOutOfOrderEnds).rounds (mkRat 97 100) = some 10
    ∧ compute_tta (parse_server_log logOutOfOrderEnds).rounds (mkRat 95 100) = some 20
    ∧ ¬ ((20 : Int) ≤ 10) :=
  ⟨by decide, by decide, by decide, by decide⟩

/-- C7 (amended): for thresholds T2 ≤ T1, if TTA(T1) is non-null then
so is TTA(T2); and when the records' parsed end timestamps are
non-decreasing in record order (as they are whenever `round_end` events
arrive in round order), TTA(T2) ≤ TTA(T1). -/
theorem tta_monotone_in_threshold (rounds : List RoundRec) (T1 T2 : Rat)
    (hT : T2 ≤ T1) (v1 : Int) (h1 : compute_tta rounds T1 = some v1) :
    (∃ v2, compute_tta rounds T2 = some v2)
    ∧ (rounds.Pairwise ttaEndLe →
        ∀ v2, compute_tta rounds T2 = some v2 → v2 ≤ v1) := by
  constructor
  · cases h2 : compute_tta rounds T2 with
    | some v2 => exact ⟨v2, rfl⟩
    | none =>
      exfalso
      rcases ttaScan_some_exists rounds T1 rounds v1 h1 with ⟨r, hmem, hcond, te, s0, hep, hsp, _⟩
      exact ttaScan_none_forall rounds T2 rounds h2 r hmem (condTTA_mono hT hcond)
        ⟨by simp [hep], by simp [hsp]⟩
  · intro hpw v2 h2
    exact ttaScan_mono rounds hT rounds hpw v1 v2 h1 h2

/-- C7 witness: the amended statement applied to the in-order log, with
T1 = 0.97 (TTA 9) and T2 = 0.95. -/
theorem tta_monotone_in_threshold_witness :
    (∃ v2, compute_tta (parse_server_log logInOrderEnds).rounds (mkRat 95 100) = some v2)
    ∧ ((parse_server_log logInOrderEnds).rounds.Pairwise ttaEndLe →
        ∀ v2, compute_tta (parse_server_log logInOrderEnds).rounds (mkRat 95 100) = some v2 →
          v2 ≤ 9) :=
  tta_monotone_in_threshold (parse_server_log logInOrderEnds).rounds (mkRat 97 100)
    (mkRat 95 100) (by decide) 9 (by decide)

/-!
## Claim C4 — bounded retry with all-or-nothing semantics
-/

theorem netemLoop_length (ok : Nat → Bool) :
    ∀ (fuel a : Nat), (netemLoop ok a fuel).1.length ≤ fuel := by
  intro fuel
  induction fuel with
  | zero => intro a; simp [netemLoop]
  | succ n ih =>
    intro a
    by_cases h : ok a
    · simp [netemLoop, h]
    · have := ih (a + 1)
      simp [netemLoop, h]
      omega

/-- Every attempt the retry loop records lies in its window, and every
earlier attempt in the window failed (the first success stops the
loop). -/
theorem netemLoop_mem_bounds (ok : Nat → Bool) :
    ∀ (fuel a b : Nat), b ∈ (netemLoop ok a fuel).1 →
      (a ≤ b ∧ b < a + fuel) ∧ ∀ c, a ≤ c → c < b → ok c = false := by
  intro fuel
  induction fuel with
  | zero => intro a b hb; simp [netemLoop] at hb
  | succ n ih =>
    intro a b hb
    by_cases h : ok a
    · simp [netemLoop, h] at hb
      subst hb
      exact ⟨⟨le_rfl, by omega⟩, fun c hc1 hc2 => absurd hc2 (by omega)⟩
    · have hfalse : ok a = false := by simpa using h
      rw [show netemLoop ok a (n + 1) = (a :: (netemLoop ok (a + 1) n).1, (netemLoop ok (a + 1) n).2) from by simp [netemLoop, h]] at hb
      rcases List.mem_cons.mp hb with rfl | hb2
      · exact ⟨⟨le_rfl, by omega⟩, fun c hc1 hc2 => absurd hc2 (by omega)⟩
      · rcases ih (a + 1) b hb2 with ⟨⟨hb1, hb2b⟩, hprev⟩
        refine ⟨⟨by omega, by omega⟩, ?_⟩
        intro c hc1 hc2
        rcases Nat.eq_or_lt_of_le hc1 with rfl | hlt
        · exact hfalse
        · exact hprev c hlt hc2

/-- If the retry loop ends without success, every attempt in its window
failed. -/
theorem netemLoop_false_all (ok : Nat → Bool) :
    ∀ (fuel a : Nat), (netemLoop ok a fuel).2 = false →
      ∀ c, a ≤ c → c < a + fuel → ok c = false := by
  intro fuel
  induction fuel with
  | zero => intro a _ c hc1 hc2; omega
  | succ n ih =>
    intro a hf c hc1 hc2
    by_cases h : ok a
    · simp [netemLoop, h] at hf
    · have hfalse : ok a = false := by simpa using h
      have hf2 : (netemLoop ok (a + 1) n).2 = false := by
        simpa [netemLoop, h] using hf
      rcases Nat.eq_or_lt_of_le hc1 with rfl | hlt
      · exact hfalse
      · exact ih (a + 1) hf2 c hlt (by omega)

/-- The retry loop ends with success exactly when some attempt in its
window succeeds. -/
theorem netemLoop_true_iff (ok : Nat → Bool) :
    ∀ (fuel a : Nat), (netemLoop ok a fuel).2 = true ↔
      ∃ c, a ≤ c ∧ c < a + fuel ∧ ok c = true := by
  intro fuel
  induction fuel with
  | zero =>
    intro a
    simp only [netemLoop]
    constructor
    · intro h; cases h
    · rintro ⟨c, h1, h2, _⟩; omega
  | succ n ih =>
    intro a
    by_cases h : ok a
    · simp only [netemLoop, h, if_true, true_iff]
      exact ⟨a, le_rfl, by omega, h⟩
    · have hfalse : ok a = false := by simpa using h
      rw [show (netemLoop ok a (n + 1)).2 = (netemLoop ok (a + 1) n).2 from by
        simp [netemLoop, h]]
      rw [ih (a + 1)]
      constructor
      · rintro ⟨c, h1, h2, hc⟩
        exact ⟨c, by omega, by omega, hc⟩
      · rintro ⟨c, h1, h2, hc⟩
        rcases Nat.eq_or_lt_of_le h1 with rfl | hlt
        · rw [hfalse] at hc; cases hc
        · exact ⟨c, by omega, by omega, hc⟩

/-- Every recorded `(pod, attempt)` pair names a pod of the input list
and an attempt of that pod's own retry loop. -/
theorem applyClients_mem (ok : String → Nat → Bool) :
    ∀ (pods : List String) (q : String) (a : Nat),
      (q, a) ∈ (applyClients ok pods).attempts →
      q ∈ pods ∧ a ∈ (netemLoop (ok q) 1 5).1 := by
  intro pods
  induction pods with
  | nil => intro q a hqa; simp [applyClients] at hqa
  | cons pod rest ih =>
    intro q a hqa
    by_cases ht : (netemLoop (ok pod) 1 5).2
    · simp only [applyClients, ht, if_true, List.mem_append] at hqa
      rcases hqa with hmap | hrest
      · rcases List.mem_map.mp hmap with ⟨b, hb, heq⟩
        rcases Prod.mk.injEq .. |>.mp heq with ⟨rfl, rfl⟩
        exact ⟨by simp, hb⟩
      · rcases ih q a hrest with ⟨h1, h2⟩
        exact ⟨by simp [h1], h2⟩
    · rw [show applyClients ok (pod :: rest) = { attempts := (netemLoop (ok pod) 1 5).1.map (fun a => (pod, a)), error := some pod } from by simp [applyClients, ht]] at hqa
      rcases List.mem_map.mp hqa with ⟨b, hb, heq⟩
      rcases Prod.mk.injEq .. |>.mp heq with ⟨rfl, rfl⟩
      exact ⟨by simp, hb⟩

/-- With distinct pod names, no pod accumulates more than 5 recorded
attempts. -/
theorem applyClients_count (ok : String → Nat → Bool) :
    ∀ pods : List String, pods.Nodup → ∀ p,
      ((applyClients ok pods).attempts.filter (fun q => decide (q.1 = p))).length ≤ 5 := by
  intro pods
  induction pods with
  | nil => intro _ p; simp [applyClients]
  | cons pod rest ih =>
    intro hnd p
    have hnd1 : pod ∉ rest := (List.nodup_cons.mp hnd).1
    have hnd2 : rest.Nodup := (List.nodup_cons.mp hnd).2
    have htr : (netemLoop (ok pod) 1 5).1.length ≤ 5 := netemLoop_length (ok pod) 5 1
    by_cases ht : (netemLoop (ok pod) 1 5).2
    · have heq : applyClients ok (pod :: rest) =
          { attempts := (netemLoop (ok pod) 1 5).1.map (fun a => (pod, a))
              ++ (applyClients ok rest).attempts,
            error := (applyClients ok rest).error } := by
        simp [applyClients, ht]
      rw [heq]
      by_cases hp : p = pod
      · subst hp
        have h1 : ((netemLoop (ok p) 1 5).1.map (fun a => (p, a))).filter
            (fun q => decide (q.1 = p)) = (netemLoop (ok p) 1 5).1.map (fun a => (p, a)) := by
          refine List.filter_eq_self.mpr ?_
          intro x hx
          rcases List.mem_map.mp hx with ⟨b, _, rfl⟩
          simp
        have h2 : ((applyClients ok rest).attempts.filter (fun q => decide (q.1 = p))) = [] := by
          refine List.filter_eq_nil_iff.mpr ?_
          intro x hx
          rcases x with ⟨q, a⟩
          have hq := (applyClients_mem ok rest q a hx).1
          simp only [decide_eq_true_eq]
          intro hqp
          exact hnd1 (hqp ▸ hq)
        simp only [List.filter_append, h1, h2, List.length_append, List.length_nil,
          List.length_map]
        omega
      · have h1 : ((netemLoop (ok pod) 1 5).1.map (fun a => (pod, a))).filter
            (fun q => decide (q.1 = p)) = [] := by
          refine List.filter_eq_nil_iff.mpr ?_
          intro x hx
          rcases List.mem_map.mp hx with ⟨b, _, rfl⟩
          simp only [decide_eq_true_eq]
          exact fun hpq => hp hpq.symm
        simp only [List.filter_append, h1, List.nil_append]
        exact ih hnd2 p
    · have heq : applyClients ok (pod :: rest) =
          { attempts := (netemLoop (ok pod) 1 5).1.map (fun a => (pod, a)),
            error := some pod } := by
        simp [applyClients, ht]
      rw [heq]
      by_cases hp : p = pod
      · subst hp
        have h1 : ((netemLoop (ok p) 1 5).1.map (fun a => (p, a))).filter
            (fun q => decide (q.1 = p)) = (netemLoop (ok p) 1 5).1.map (fun a => (p, a)) := by
          refine List.filter_eq_self.mpr ?_
          intro x hx
          rcases List.mem_map.mp hx with ⟨b, _, rfl⟩
          simp
        simp only [h1, List.length_map]
        exact htr
      · have h1 : ((netemLoop (ok pod) 1 5).1.map (fun a => (pod, a))).filter
            (fun q => decide (q.1 = p)) = [] := by
          refine List.filter_eq_nil_iff.mpr ?_
          intro x hx
          rcases List.mem_map.mp hx with ⟨b, _, rfl⟩
          simp only [decide_eq_true_eq]
          exact fun hpq => hp hpq.symm
        simp [h1]

/-- A raised error names a pod of the list whose retry loop ended
without success. -/
theorem applyClients_error_mem (ok : String → Nat → Bool) :
    ∀ (pods : List String) (p : String), (applyClients ok pods).error = some p →
      p ∈ pods ∧ (netemLoop (ok p) 1 5).2 = false := by
  intro pods
  induction pods with
  | nil => intro p herr; simp [applyClients] at herr
  | cons pod rest ih =>
    intro p herr
    by_cases ht : (netemLoop (ok pod) 1 5).2
    · have herr2 : (applyClients ok rest).error = some p := by
        simpa [applyClients, ht] using herr
      rcases ih p herr2 with ⟨h1, h2⟩
      exact ⟨by simp [h1], h2⟩
    · have hp : pod = p := by simpa [applyClients, ht] using herr
      subst hp
      exact ⟨by simp, by simpa using ht⟩

/-- The loop over pods returns without error exactly when every pod's
retry loop succeeded: a pod whose 5 attempts all fail forces the
error, and a normal return means every pod was impaired. -/
theorem applyClients_error_none_iff (ok : String → Nat → Bool) :
    ∀ pods : List String, (applyClients ok pods).error = none ↔
      ∀ p ∈ pods, (netemLoop (ok p) 1 5).2 = true := by
  intro pods
  induction pods with
  | nil => simp [applyClients]
  | cons pod rest ih =>
    by_cases ht : (netemLoop (ok pod) 1 5).2
    · have heq : applyClients ok (pod :: rest) =
          { attempts := (netemLoop (ok pod) 1 5).1.map (fun a => (pod, a))
              ++ (applyClients ok rest).attempts,
            error := (applyClients ok rest).error } := by
        simp [applyClients, ht]
      rw [heq]
      constructor
      · intro h p hp
        rcases List.mem_cons.mp hp with rfl | hp2
        · exact ht
        · exact (ih.mp h) p hp2
      · intro h
        exact ih.mpr fun p hp => h p (List.mem_cons_of_mem pod hp)
    · have heq : applyClients ok (pod :: rest) =
          { attempts := (netemLoop (ok pod) 1 5).1.map (fun a => (pod, a)),
            error := some pod } := by
        simp [applyClients, ht]
      rw [heq]
      constructor
      · intro h; cases h
      · intro h
        exact absurd (h pod (List.mem_cons_self pod rest)) ht

/-- After the error the loop raises for one pod, no pod later in the
list records any attempt. -/
theorem applyClients_error_stops (ok : String → Nat → Bool) :
    ∀ pods : List String, pods.Nodup → ∀ p : String,
      (applyClients ok pods).error = some p →
      ∀ l1 l2, pods = l1 ++ p :: l2 → ∀ q ∈ l2, ∀ a : Nat,
        (q, a) ∉ (applyClients ok pods).attempts := by
  intro pods
  induction pods with
  | nil => intro _ p herr; simp [applyClients] at herr
  | cons pod rest ih =>
    intro hnd p herr l1 l2 hsplit q hq a hqa
    have hnd1 : pod ∉ rest := (List.nodup_cons.mp hnd).1
    have hnd2 : rest.Nodup := (List.nodup_cons.mp hnd).2
    by_cases ht : (netemLoop (ok pod) 1 5).2
    · have heq2 : applyClients ok (pod :: rest) =
          { attempts := (netemLoop (ok pod) 1 5).1.map (fun b => (pod, b))
              ++ (applyClients ok rest).attempts,
            error := (applyClients ok rest).error } := by
        simp [applyClients, ht]
      have herr2 : (applyClients ok rest).error = some p := by
        rw [heq2] at herr
        exact herr
      have hpmem : p ∈ rest := (applyClients_error_mem ok rest p herr2).1
      cases l1 with
      | nil =>
        have hhd : pod = p := by simpa using congrArg (fun l => l.head?) hsplit
        exact hnd1 (hhd ▸ hpmem)
      | cons x l1x =>
        have htl : rest = l1x ++ p :: l2 := by
          have := congrArg List.tail hsplit
          simpa using this
        rw [heq2] at hqa
        rcases List.mem_append.mp hqa with hmap | hrest2
        · rcases List.mem_map.mp hmap with ⟨b, _, heqb⟩
          have hqpod : pod = q := congrArg Prod.fst heqb
          have hqrest : q ∈ rest := htl ▸ List.mem_append_right l1x (List.mem_cons_of_mem p hq)
          exact hnd1 (hqpod ▸ hqrest)
        · exact ih hnd2 p herr2 l1x l2 htl q hq a hrest2
    · have heq2 : applyClients ok (pod :: rest) =
          { attempts := (netemLoop (ok pod) 1 5).1.map (fun b => (pod, b)),
            error := some pod } := by
        simp [applyClients, ht]
      have hp : pod = p := by
        rw [heq2] at herr
        simpa using herr
      rw [heq2] at hqa
      rcases List.mem_map.mp hqa with ⟨b, _, heqb⟩
      have hqpod : pod = q := congrArg Prod.fst heqb
      have hqrest : q ∈ rest := by
        cases l1 with
        | nil =>
          have htl : rest = l2 := by
            have := congrArg List.tail hsplit
            simpa using this
          exact htl ▸ hq
        | cons x l1x =>
          have htl : rest = l1x ++ p :: l2 := by
            have := congrArg List.tail hsplit
            simpa using this
          exact htl ▸ List.mem_append_right l1x (List.mem_cons_of_mem p hq)
      exact hnd1 (hqpod ▸ hqrest)

/-- C4: for a non-baseline profile, each client pod is attempted at
most 5 times; an attempt is made only if all earlier attempts for that
pod failed (the first success short-circuits the retry loop); when the
injector raises for a pod, that pod's 5 attempts all failed and no pod
after it in the list was attempted at all; and the call returns without
error exactly when every pod of the run had a successful attempt — so
exhausting any single pod's 5 attempts forces the error, and partial
impairment is never reported as success. -/
theorem impairment_retry_all_or_nothing (profile : String) (hprof : profile ≠ "NET0")
    (pods : List String) (hnd : pods.Nodup) (ok : String → Nat → Bool) :
    (∀ p, ((apply_network_profile profile pods ok).attempts.filter
        (fun q => decide (q.1 = p))).length ≤ 5)
    ∧ (∀ p a, (p, a) ∈ (apply_network_profile profile pods ok).attempts →
        1 ≤ a ∧ a ≤ 5 ∧ ∀ b, 1 ≤ b → b < a → ok p b = false)
    ∧ (∀ p, (apply_network_profile profile pods ok).error = some p →
        (∀ a, 1 ≤ a → a ≤ 5 → ok p a = false)
        ∧ ∀ l1 l2, pods = l1 ++ p :: l2 → ∀ q ∈ l2, ∀ a,
            (q, a) ∉ (apply_network_profile profile pods ok).attempts)
    ∧ ((apply_network_profile profile pods ok).error = none ↔
        ∀ p ∈ pods, ∃ a, 1 ≤ a ∧ a ≤ 5 ∧ ok p a = true) := by
  have hnp : apply_network_profile profile pods ok = applyClients ok pods := by
    simp [apply_network_profile, hprof]
  rw [hnp]
  have hwin : ∀ p, ((netemLoop (ok p) 1 5).2 = true ↔
      ∃ a, 1 ≤ a ∧ a ≤ 5 ∧ ok p a = true) := by
    intro p
    rw [netemLoop_true_iff]
    constructor
    · rintro ⟨c, h1, h2, hc⟩; exact ⟨c, h1, by omega, hc⟩
    · rintro ⟨c, h1, h2, hc⟩; exact ⟨c, h1, by omega, hc⟩
  refine ⟨applyClients_count ok pods hnd, ?_, ?_, ?_⟩
  · intro p a hpa
    have hm := applyClients_mem ok pods p a hpa
    rcases netemLoop_mem_bounds (ok p) 5 1 a hm.2 with ⟨⟨h1, h2⟩, hprev⟩
    exact ⟨h1, by omega, fun b hb1 hb2 => hprev b hb1 hb2⟩
  · intro p herr
    have hm := applyClients_error_mem ok pods p herr
    refine ⟨fun a ha1 ha5 => netemLoop_false_all (ok p) 5 1 hm.2 a ha1 (by omega), ?_⟩
    intro l1 l2 hsplit q hq a
    exact applyClients_error_stops ok pods hnd p herr l1 l2 hsplit q hq a
  · constructor
    · intro h p hp
      exact (hwin p).mp ((applyClients_error_none_iff ok pods).mp h p hp)
    · intro h
      exact (applyClients_error_none_iff ok pods).mpr fun p hp => (hwin p).mpr (h p hp)

/-- A netem command that fails on every pod at every attempt. -/
def alwaysFail : String → Nat → Bool := fun _ _ => false

/-- C4 witness: the retry contract applied to profile `NET1` with two
pods whose netem commands always fail.  The error is actually raised —
it names the first pod, whose 5 recorded attempts are exactly
`1, 2, 3, 4, 5` — and the second pod is never attempted; the full
contract, including the success-iff-every-pod-impaired equivalence,
is instantiated at this input. -/
theorem impairment_retry_all_or_nothing_witness :
    ((apply_network_profile "NET1" ["pod-a", "pod-b"] alwaysFail).error = some "pod-a"
      ∧ (apply_network_profile "NET1" ["pod-a", "pod-b"] alwaysFail).attempts
          = [("pod-a", 1), ("pod-a", 2), ("pod-a", 3), ("pod-a", 4), ("pod-a", 5)])
    ∧ (∀ p, ((apply_network_profile "NET1" ["pod-a", "pod-b"] alwaysFail).attempts.filter
        (fun q => decide (q.1 = p))).length ≤ 5)
    ∧ (∀ p a, (p, a) ∈ (apply_network_profile "NET1" ["pod-a", "pod-b"] alwaysFail).attempts →
        1 ≤ a ∧ a ≤ 5 ∧ ∀ b, 1 ≤ b → b < a → alwaysFail p b = false)
    ∧ (∀ p, (apply_network_profile "NET1" ["pod-a", "pod-b"] alwaysFail).error = some p →
        (∀ a, 1 ≤ a → a ≤ 5 → alwaysFail p a = false)
        ∧ ∀ l1 l2, ["pod-a", "pod-b"] = l1 ++ p :: l2 → ∀ q ∈ l2, ∀ a,
            (q, a) ∉ (apply_network_profile "NET1" ["pod-a", "pod-b"] alwaysFail).attempts)
    ∧ ((apply_network_profile "NET1" ["pod-a", "pod-b"] alwaysFail).error = none ↔
        ∀ p ∈ ["pod-a", "pod-b"], ∃ a, 1 ≤ a ∧ a ≤ 5 ∧ alwaysFail p a = true) :=
  ⟨⟨by decide, by decide⟩,
   impairment_retry_all_or_nothing "NET1" (by decide) ["pod-a", "pod-b"] (by decide) alwaysFail⟩

/-!
## Claim C8 — the campaign driver's resume index
-/

/-- The resume loop, entered with running index `i`, executes exactly
the configurations from position `k - i` on. -/
theorem campaignLoop_eq_drop {α : Type} (k : Nat) :
    ∀ (l : List α) (i : Nat), campaignLoop k i l = l.drop (k - i) := by
  intro l
  induction l with
  | nil => intro i; simp [campaignLoop]
  | cons c cs ih =>
    intro i
    by_cases h : i < k
    · have hk : k - i = (k - (i + 1)) + 1 := by omega
      simp [campaignLoop, h, ih, hk]
    · have hk : k - i = 0 := by omega
      have hk1 : k - (i + 1) = 0 := by omega
      simp [campaignLoop, h, ih, hk, hk1]

/-- C8: with a resume index `k ≤ n`, the campaign driver executes
exactly the configurations at indices `k` through `n - 1`, in their
original enumeration order, and none of the configurations before
index `k` — that is, exactly the length-`(n-k)` suffix of the
enumerated list. -/
theorem campaign_resume_executes_suffix {α : Type} (configs : List α) (k : Nat)
    (_hk : k ≤ configs.length) :
    campaignExecuted configs k = configs.drop k := by
  unfold campaignExecuted
  rw [campaignLoop_eq_drop, Nat.sub_zero]

/-- C8 witness: the spec scenario — resume index 3 on a
10-configuration list executes configurations 3..9 only, in order. -/
theorem campaign_resume_executes_suffix_witness :
    campaignExecuted [0, 1, 2, 3, 4, 5, 6, 7, 8, 9] 3
      = List.drop 3 [0, 1, 2, 3, 4, 5, 6, 7, 8, 9] :=
  campaign_resume_executes_suffix [0, 1, 2, 3, 4, 5, 6, 7, 8, 9] 3 (by decide)

end ZeroTrustFLBench
